import Mathlib

/-!
Verification development for the metadata core of the `ds-decomp` binary
reconstruction toolkit: relocations (`src/lib/src/config/relocations.rs`),
sections (`src/lib/src/config/section.rs`) and symbols
(`src/src/config/symbol.rs`).

Machine integers (`u32`, `u16`, bytes) are modelled as `Nat`; in every
operation modelled here the Rust code performs no wrapping arithmetic, so no
`% 2 ^ 32` reduction is needed (bounds are stated as hypotheses where they
matter).  `i32`/`i64` addends are modelled as `Int` (widening `i32 → i64`
never wraps).  Fallible operations return `Except`; a Rust `panic!` is
modelled as `Except.error ()` (the panic message text is not modelled).
-/

namespace DsDecomp

/-- Equality of fallible results is decidable (needed to evaluate the models
on concrete inputs). -/
instance {ε α : Type} [DecidableEq ε] [DecidableEq α] : DecidableEq (Except ε α) := fun x y =>
  match x, y with
  | .ok a, .ok b =>
    if h : a = b then isTrue (by rw [h]) else isFalse (by intro he; cases he; exact h rfl)
  | .ok _, .error _ => isFalse (by intro h; cases h)
  | .error _, .ok _ => isFalse (by intro h; cases h)
  | .error a, .error b =>
    if h : a = b then isTrue (by rw [h]) else isFalse (by intro he; cases he; exact h rfl)

/-! ## Character and string primitives

The repository reads its text formats line by line with
`str::split_whitespace`, `str::find("//")`, `str::split_once` and
`str::strip_suffix`.  These are modelled below as structural recursions over
`List Char` so that every parser is executable by kernel reduction.
-/

/-- `line[..line.find("//").unwrap_or(line.len())]`: drop everything from the
first occurrence of `//` onwards. -/
def stripCommentChars : List Char → List Char
  | [] => []
  | '/' :: '/' :: _ => []
  | c :: rest => c :: stripCommentChars rest

def stripComment (s : String) : String :=
  String.mk (stripCommentChars s.data)

/-- Helper for `splitWhitespace`: `acc` holds the current word reversed. -/
def splitWSAux : List Char → List Char → List String
  | [], acc => if acc.isEmpty then [] else [String.mk acc.reverse]
  | c :: cs, acc =>
    if c.isWhitespace then
      if acc.isEmpty then splitWSAux cs [] else String.mk acc.reverse :: splitWSAux cs []
    else
      splitWSAux cs (c :: acc)

/-- `str::split_whitespace`: the whitespace-separated words of a line. -/
def splitWhitespace (s : String) : List String :=
  splitWSAux s.data []

/-- `str::split_once(c)` on the character list. -/
def splitOnceChars (c : Char) : List Char → Option (List Char × List Char)
  | [] => Option.none
  | x :: xs =>
    if x = c then Option.some ([], xs)
    else (splitOnceChars c xs).map (fun p => (x :: p.1, p.2))

def splitOnce (s : String) (c : Char) : Option (String × String) :=
  (splitOnceChars c s.data).map (fun p => (String.mk p.1, String.mk p.2))

/-- `str::strip_suffix(')').unwrap_or(options)`: drop one trailing `)` if
present, otherwise keep the string unchanged. -/
def stripParenSuffix (s : String) : String :=
  match s.data.reverse with
  | ')' :: rest => String.mk rest.reverse
  | _ => s

/-- `str::split(',')` (never empty; splitting the empty string yields `[""]`,
as in Rust). -/
def splitCommaAux : List Char → List Char → List String
  | [], acc => [String.mk acc.reverse]
  | c :: cs, acc =>
    if c = ',' then String.mk acc.reverse :: splitCommaAux cs []
    else splitCommaAux cs (c :: acc)

def splitComma (s : String) : List String :=
  splitCommaAux s.data []

/-! ## Numeric tokens

The repository parses integers through `crate::util::parse::{parse_u32,
parse_i32, parse_u16}`, whose source file is not part of `src/`. -/

def decDigitVal (c : Char) : Option Nat :=
  if '0' ≤ c ∧ c ≤ '9' then Option.some (c.toNat - '0'.toNat) else Option.none

def hexDigitVal (c : Char) : Option Nat :=
  if '0' ≤ c ∧ c ≤ '9' then Option.some (c.toNat - '0'.toNat)
  else if 'a' ≤ c ∧ c ≤ 'f' then Option.some (c.toNat - 'a'.toNat + 10)
  else if 'A' ≤ c ∧ c ≤ 'F' then Option.some (c.toNat - 'A'.toNat + 10)
  else Option.none

def parseDecAux : List Char → Nat → Option Nat
  | [], acc => Option.some acc
  | c :: cs, acc =>
    match decDigitVal c with
    | Option.some d => parseDecAux cs (acc * 10 + d)
    | Option.none => Option.none

def parseHexAux : List Char → Nat → Option Nat
  | [], acc => Option.some acc
  | c :: cs, acc =>
    match hexDigitVal c with
    | Option.some d => parseHexAux cs (acc * 16 + d)
    | Option.none => Option.none

/-- Modelled from the spec: the shared unsigned-number token grammar
(`<hex|dec u32>`): a `0x`-prefixed hexadecimal numeral or a plain decimal
numeral (the implementation of `util::parse` is not in `src/`). -/
def parseNatToken (s : String) : Option Nat :=
  match s.data with
  | '0' :: 'x' :: rest => if rest.isEmpty then Option.none else parseHexAux rest 0
  | l => if l.isEmpty then Option.none else parseDecAux l 0

/-- Modelled from the spec: `util::parse::parse_u32` (source not in `src/`),
rejecting values that do not fit in a `u32`. -/
def parseU32 (s : String) : Option Nat :=
  (parseNatToken s).bind (fun n => if n < 2 ^ 32 then Option.some n else Option.none)

/-- Modelled from the spec: `util::parse::parse_u16` (source not in `src/`),
rejecting values that do not fit in a `u16`. -/
def parseU16 (s : String) : Option Nat :=
  (parseNatToken s).bind (fun n => if n < 2 ^ 16 then Option.some n else Option.none)

/-- Modelled from the spec: `util::parse::parse_i32` (source not in `src/`):
an optionally `-`-signed number token in `i32` range. -/
def parseI32 (s : String) : Option Int :=
  match s.data with
  | '-' :: rest =>
    (parseNatToken (String.mk rest)).bind
      (fun n => if n ≤ 2 ^ 31 then Option.some (-(n : Int)) else Option.none)
  | _ =>
    (parseNatToken s).bind
      (fun n => if n < 2 ^ 31 then Option.some (n : Int) else Option.none)

/-- Fuel-based decimal printer (`{}` for an unsigned integer); 16 digits of
fuel cover every `u32`/`u16` value. -/
def decCharsAux : Nat → Nat → List Char
  | 0, _ => []
  | fuel + 1, n => if n = 0 then [] else decCharsAux fuel (n / 10) ++ [Nat.digitChar (n % 10)]

def decStr (n : Nat) : String :=
  if n = 0 then "0" else String.mk (decCharsAux 16 n)

/-- `{:#010x}` applied to a `u32`: `0x` followed by exactly eight lowercase
hexadecimal digits. -/
def hex8 (n : Nat) : String :=
  String.mk ('0' :: 'x' :: (List.range 8).reverse.map (fun i => Nat.digitChar (n / 16 ^ i % 16)))

/-- Modelled from the spec: `config::iter_attributes` (its source file is not
in `src/`) turns each whitespace word into a `key:value` pair by splitting at
the first `:`; a word without `:` becomes a pair with an empty value, which
every caller then rejects (as an unknown key or a malformed number). -/
def iterAttributes (words : List String) : List (String × String) :=
  words.map (fun w => (splitOnce w ':').getD (w, ""))

/-! ## Relocations (`src/lib/src/config/relocations.rs`)

Parse-error diagnostics in the source carry a `ParseContext` (file path and
row) and a backtrace; neither influences control flow, so error variants here
carry only the offending token. -/

inductive RelocationKind
  | armCall
  | thumbCall
  | armCallThumb
  | thumbCallArm
  | armBranch
  | load
  deriving DecidableEq

inductive RelocationModule
  | none
  | overlay (id : Nat)
  | overlays (ids : List Nat)
  | main
  | itcm
  | dtcm
  deriving DecidableEq

structure Relocation where
  /-- source field `from` (`from` is a Lean keyword). -/
  fromAddr : Nat
  /-- source field `to`. -/
  toAddr : Nat
  addend : Int
  kind : RelocationKind
  module : RelocationModule
  source : Option String
  deriving DecidableEq

inductive RelocParseError
  | parseFrom (value : String)
  | parseTo (value : String)
  | parseAdd (value : String)
  | unknownKind (value : String)
  | unexpectedOptions (module options : String)
  | parseOverlayId (value : String)
  | expectedMultipleOverlays (ids : List Nat)
  | unknownModule (module : String)
  | unknownAttribute (key : String)
  | missingAttribute (attr : String)
  deriving DecidableEq

/-- `RelocationKind::parse`. -/
def RelocationKind.parse (value : String) : Except RelocParseError RelocationKind :=
  if value = "arm_call" then .ok .armCall
  else if value = "thumb_call" then .ok .thumbCall
  else if value = "arm_call_thumb" then .ok .armCallThumb
  else if value = "thumb_call_arm" then .ok .thumbCallArm
  else if value = "arm_branch" then .ok .armBranch
  else if value = "load" then .ok .load
  else .error (.unknownKind value)

/-- `RelocationKind::addend`: the kind-intrinsic pc-relative bias. -/
def RelocationKind.addend : RelocationKind → Int
  | .armCall => -8
  | .thumbCall => -4
  | .armCallThumb => -8
  | .thumbCallArm => -4
  | .armBranch => -8
  | .load => 0

/-- `Display for RelocationKind`. -/
def RelocationKind.display : RelocationKind → String
  | .armCall => "arm_call"
  | .thumbCall => "thumb_call"
  | .armCallThumb => "arm_call_thumb"
  | .thumbCallArm => "thumb_call_arm"
  | .armBranch => "arm_branch"
  | .load => "load"

/-- Helper for `RelocationModule::parse`: the `overlays(...)` id list. -/
def parseOverlayIds : List String → Except RelocParseError (List Nat)
  | [] => .ok []
  | x :: xs =>
    match parseU16 x with
    | Option.none => .error (.parseOverlayId x)
    | Option.some id =>
      match parseOverlayIds xs with
      | .error e => .error e
      | .ok ids => .ok (id :: ids)

/-- `RelocationModule::parse`. -/
def RelocationModule.parse (text : String) : Except RelocParseError RelocationModule :=
  let p := (splitOnce text '(').getD (text, "")
  let value := p.1
  let options := stripParenSuffix p.2
  if value = "none" then
    if options.isEmpty then .ok .none else .error (.unexpectedOptions "none" options)
  else if value = "overlay" then
    match parseU16 options with
    | Option.some id => .ok (.overlay id)
    | Option.none => .error (.parseOverlayId options)
  else if value = "overlays" then
    match parseOverlayIds (splitComma options) with
    | .error e => .error e
    | .ok ids => if ids.length < 2 then .error (.expectedMultipleOverlays ids) else .ok (.overlays ids)
  else if value = "main" then
    if options.isEmpty then .ok .main else .error (.unexpectedOptions "main" options)
  else if value = "itcm" then
    if options.isEmpty then .ok .itcm else .error (.unexpectedOptions "itcm" options)
  else if value = "dtcm" then
    if options.isEmpty then .ok .dtcm else .error (.unexpectedOptions "dtcm" options)
  else .error (.unknownModule value)

/-- `Display for RelocationModule`.  (`overlays` must be non-empty when
displayed; the parser guarantees at least two ids.  On an empty list the Rust
code would panic at `ids[0]`; `String.intercalate` agrees with the source on
every non-empty list.) -/
def RelocationModule.display : RelocationModule → String
  | .none => "none"
  | .overlay id => "overlay(" ++ decStr id ++ ")"
  | .overlays ids => "overlays(" ++ String.intercalate "," (ids.map decStr) ++ ")"
  | .main => "main"
  | .itcm => "itcm"
  | .dtcm => "dtcm"

/-- The attribute-folding loop of `Relocation::parse`; the quintuple is
(`from`, `to`, `addend`, `kind`, `module`). -/
def relocParseAttrs :
    List (String × String) → Option Nat → Option Nat → Int → Option RelocationKind →
    Option RelocationModule →
    Except RelocParseError (Option Nat × Option Nat × Int × Option RelocationKind ×
      Option RelocationModule)
  | [], f, t, a, k, m => .ok (f, t, a, k, m)
  | (key, value) :: rest, f, t, a, k, m =>
    if key = "from" then
      match parseU32 value with
      | Option.some n => relocParseAttrs rest (Option.some n) t a k m
      | Option.none => .error (.parseFrom value)
    else if key = "to" then
      match parseU32 value with
      | Option.some n => relocParseAttrs rest f (Option.some n) a k m
      | Option.none => .error (.parseTo value)
    else if key = "add" then
      match parseI32 value with
      | Option.some n => relocParseAttrs rest f t n k m
      | Option.none => .error (.parseAdd value)
    else if key = "kind" then
      match RelocationKind.parse value with
      | .ok kd => relocParseAttrs rest f t a (Option.some kd) m
      | .error e => .error e
    else if key = "module" then
      match RelocationModule.parse value with
      | .ok md => relocParseAttrs rest f t a k (Option.some md)
      | .error e => .error e
    else .error (.unknownAttribute key)

/-- `Relocation::parse`.  Note that this function never returns
`.ok Option.none`: a line with no attributes (e.g. a blank line) fails with
`missing 'from'`. -/
def Relocation.parse (line : String) : Except RelocParseError (Option Relocation) :=
  match relocParseAttrs (iterAttributes (splitWhitespace line)) Option.none Option.none 0
      Option.none Option.none with
  | .error e => .error e
  | .ok (f, t, a, k, m) =>
    match f with
    | Option.none => .error (.missingAttribute "from")
    | Option.some f =>
      match t with
      | Option.none => .error (.missingAttribute "to")
      | Option.some t =>
        match k with
        | Option.none => .error (.missingAttribute "kind")
        | Option.some k =>
          match m with
          | Option.none => .error (.missingAttribute "module")
          | Option.some m => .ok (Option.some ⟨f, t, a, k, m, Option.none⟩)

/-- `Display for Relocation`: note that the stored `addend` is **not**
serialized (`add:` never appears in the output). -/
def Relocation.display (r : Relocation) : String :=
  "from:" ++ hex8 r.fromAddr ++ " kind:" ++ r.kind.display ++ " to:" ++ hex8 r.toAddr ++
    " module:" ++ r.module.display ++
    (match r.source with
     | Option.some src => " // " ++ src
     | Option.none => "")

/-- `Relocation::addend()`: the effective addend
(`self.addend as i64 + self.kind.addend()`; `addend` is taken by the stored
field's accessor, so the method is named `effectiveAddend` here). -/
def Relocation.effectiveAddend (r : Relocation) : Int :=
  r.addend + r.kind.addend

/-- `Relocations` is a `BTreeMap<u32, Relocation>`: modelled as an
association list sorted strictly ascending by key. -/
abbrev Relocations := List (Nat × Relocation)

/-- `BTreeMap::insert`: replaces the value if the key is present, otherwise
inserts at the sorted position. -/
def btreeInsert : Relocations → Nat → Relocation → Relocations
  | [], k, v => [(k, v)]
  | (k', v') :: rest, k, v =>
    if k < k' then (k, v) :: (k', v') :: rest
    else if k = k' then (k, v) :: rest
    else (k', v') :: btreeInsert rest k v

/-- `BTreeMap::get` / the vacant-or-occupied test of `BTreeMap::entry`. -/
def btreeGet : Relocations → Nat → Option Relocation
  | [], _ => Option.none
  | (k', v') :: rest, k => if k = k' then Option.some v' else btreeGet rest k

inductive RelocationsError
  | relocationCollision (fromAddr currTo : Nat) (currModule : RelocationModule) (prevTo : Nat)
      (prevModule : RelocationModule)
  deriving DecidableEq

/-- `Relocations::add`: vacant entries are inserted; an occupied entry is
accepted (with only a log warning, keeping the stored record) when the new
record is `==`-equal to it, and rejected with a collision error otherwise. -/
def Relocations.add (m : Relocations) (r : Relocation) : Except RelocationsError Relocations :=
  match btreeGet m r.fromAddr with
  | Option.none => .ok (btreeInsert m r.fromAddr r)
  | Option.some prev =>
    if prev = r then .ok m
    else .error (.relocationCollision r.fromAddr r.toAddr r.module prev.toAddr prev.module)

/-- `Relocations::get`. -/
def Relocations.get (m : Relocations) (fromAddr : Nat) : Option Relocation :=
  btreeGet m fromAddr

/-- The loop of `Relocations::from_file`, over the already-read lines of the
file: strip a `//` comment, parse, and insert with `BTreeMap::insert`
(**not** with `Relocations::add` — no collision check happens here). -/
def Relocations.fromLines : List String → Relocations → Except RelocParseError Relocations
  | [], m => .ok m
  | line :: rest, m =>
    match Relocation.parse (stripComment line) with
    | .error e => .error e
    | .ok Option.none => Relocations.fromLines rest m
    | .ok (Option.some r) => Relocations.fromLines rest (btreeInsert m r.fromAddr r)

/-- `Relocations::from_file`, starting from the empty map. -/
def Relocations.fromFile (lines : List String) : Except RelocParseError Relocations :=
  Relocations.fromLines lines []

/-! ## Symbols (`src/src/config/symbol.rs`)

`SymbolMap` stores a flat `Vec<Symbol>` plus two derived multi-indices,
`symbols_by_address : BTreeMap<u32, Vec<usize>>` and
`symbols_by_name : HashMap<String, Vec<usize>>`.  Both constructors
(`from_symbols` and `add`) keep each index entry equal to the list of
positions of the matching symbols in insertion order, and an entry exists
exactly when at least one symbol matches; the indices are therefore modelled
as the derived functions `atAddress` / `atName` below. -/

inductive InstructionMode
  | auto
  | arm
  | thumb
  deriving DecidableEq

structure SymFunction where
  mode : InstructionMode
  deriving DecidableEq

structure SymJumpTable where
  size : Nat
  code : Bool
  deriving DecidableEq

inductive DataKind
  | byte
  | word
  deriving DecidableEq

structure SymData where
  kind : DataKind
  count : Nat
  deriving DecidableEq

inductive SymbolKind
  | function (f : SymFunction)
  | label
  | poolConstant
  | jumpTable (t : SymJumpTable)
  | data (d : SymData)
  | bss
  deriving DecidableEq

structure Symbol where
  name : String
  kind : SymbolKind
  addr : Nat
  deriving DecidableEq

structure SymbolMap where
  symbols : List Symbol
  deriving DecidableEq

/-- The `symbols_by_address` index entry for `address`: the indexed symbols
with that address, as (index, symbol) pairs in insertion order. -/
def SymbolMap.atAddress (m : SymbolMap) (address : Nat) : List (Nat × Symbol) :=
  m.symbols.enum.filter (fun p => p.2.addr == address)

/-- The `symbols_by_name` index entry for `name`. -/
def SymbolMap.atName (m : SymbolMap) (name : String) : List (Nat × Symbol) :=
  m.symbols.enum.filter (fun p => p.2.name == name)

/-- `SymbolMap::for_address`: `None` when no symbol has that address,
otherwise all matching symbols (never a fault). -/
def SymbolMap.forAddress (m : SymbolMap) (address : Nat) : Option (List (Nat × Symbol)) :=
  if (m.atAddress address).isEmpty then Option.none else Option.some (m.atAddress address)

/-- `SymbolMap::by_address`: `panic!`s (modelled as `.error ()`) when more
than one symbol is stored at `address`. -/
def SymbolMap.byAddress (m : SymbolMap) (address : Nat) : Except Unit (Option (Nat × Symbol)) :=
  match m.forAddress address with
  | Option.none => .ok Option.none
  | Option.some [] => .error ()
  | Option.some [x] => .ok (Option.some x)
  | Option.some (_ :: _ :: _) => .error ()

/-- `SymbolMap::for_name`. -/
def SymbolMap.forName (m : SymbolMap) (name : String) : Option (List (Nat × Symbol)) :=
  if (m.atName name).isEmpty then Option.none else Option.some (m.atName name)

/-- `SymbolMap::by_name`: `bail!`s (an `anyhow` error, modelled as
`.error ()`) when more than one symbol has `name`. -/
def SymbolMap.byName (m : SymbolMap) (name : String) : Except Unit (Option (Nat × Symbol)) :=
  match m.forName name with
  | Option.none => .ok Option.none
  | Option.some [] => .error ()
  | Option.some [x] => .ok (Option.some x)
  | Option.some (_ :: _ :: _) => .error ()

/-- `SymbolMap::add`: unconditional append (plus index update, which is
derived here). -/
def SymbolMap.add (m : SymbolMap) (s : Symbol) : SymbolMap :=
  ⟨m.symbols ++ [s]⟩

/-- `<SymbolMap as LookupSymbol>::lookup_symbol_name`: the name of the symbol
`by_address` finds at `destination` (a panic inside `by_address`
propagates). -/
def SymbolMap.lookupSymbolName (m : SymbolMap) (_sourceAddr destination : Nat) :
    Except Unit (Option String) :=
  match m.byAddress destination with
  | .error e => .error e
  | .ok Option.none => .ok Option.none
  | .ok (Option.some (_, s)) => .ok (Option.some s.name)

/-! ## Sections (`src/lib/src/config/section.rs`) -/

inductive SectionKind
  | code
  | data
  | bss
  deriving DecidableEq

/-- `analysis::functions::Function` is outside this core (its file is not in
`src/`); a section only keys attached functions by their start address, so
only that field is modelled. -/
structure Function where
  start_address : Nat
  deriving DecidableEq

structure Section where
  name : String
  kind : SectionKind
  start_address : Nat
  end_address : Nat
  alignment : Nat
  /-- `functions : BTreeMap<u32, Function>`, as a key-ordered association
  list. -/
  functions : List (Nat × Function)
  deriving DecidableEq

inductive SectionError
  | endBeforeStart (name : String) (start_address end_address : Nat)
  | alignmentPowerOfTwo (name : String) (alignment : Nat)
  | misalignedStart (name : String) (start_address alignment : Nat)
  deriving DecidableEq

/-- `u32::is_power_of_two`, by its documented semantics (`n = 2 ^ k` for some
`k`; every `u32` power of two has `k < 32`). -/
def isPowerOfTwo (n : Nat) : Bool :=
  (List.range 32).any (fun k => n == 2 ^ k)

/-- `Section::with_functions` (also the body of `Section::new`): validates
end-before-start, power-of-two alignment, and start alignment (via the mask
`alignment - 1`), in that order, before constructing the section. -/
def Section.with_functions (name : String) (kind : SectionKind)
    (start_address end_address alignment : Nat) (functions : List (Nat × Function)) :
    Except SectionError Section :=
  if end_address < start_address then .error (.endBeforeStart name start_address end_address)
  else if !isPowerOfTwo alignment then .error (.alignmentPowerOfTwo name alignment)
  else if start_address &&& (alignment - 1) ≠ 0 then
    .error (.misalignedStart name start_address alignment)
  else .ok ⟨name, kind, start_address, end_address, alignment, functions⟩

/-- `Section::new`. -/
def Section.new (name : String) (kind : SectionKind)
    (start_address end_address alignment : Nat) : Except SectionError Section :=
  Section.with_functions name kind start_address end_address alignment []

/-- `Section::inherit`: copies name, kind and alignment from `other`, with a
fresh address range; only end-before-start is validated. -/
def Section.inherit (other : Section) (start_address end_address : Nat) :
    Except SectionError Section :=
  if end_address < start_address then
    .error (.endBeforeStart other.name start_address end_address)
  else .ok ⟨other.name, other.kind, start_address, end_address, other.alignment, []⟩

/-- `Section::overlaps_with`: half-open interval intersection. -/
def Section.overlaps_with (s other : Section) : Bool :=
  s.start_address < other.end_address && other.start_address < s.end_address

/-- Rust `Range<u32>` (`start..stop`, half-open; `end` is a Lean keyword). -/
structure URange where
  start : Nat
  stop : Nat
  deriving DecidableEq

/-- `Section::address_range`. -/
def Section.address_range (s : Section) : URange :=
  ⟨s.start_address, s.end_address⟩

/-- `Section::size`. -/
def Section.size (s : Section) : Nat :=
  s.end_address - s.start_address

/-- `u32::next_multiple_of(4)`: the smallest multiple of 4 that is `≥ x`. -/
def nextMultipleOf4 (x : Nat) : Nat :=
  (x + 3) / 4 * 4

/-- `x & !3` on a `u32`: clearing the two lowest bits rounds down to a
multiple of 4. -/
def andNot3 (x : Nat) : Nat :=
  x / 4 * 4

/-- `(start..end).step_by(4)`, with `end - start` as structural fuel. -/
def stepBy4Aux : Nat → Nat → Nat → List Nat
  | 0, _, _ => []
  | fuel + 1, s, e => if s < e then s :: stepBy4Aux fuel (s + 4) e else []

def stepBy4 (s e : Nat) : List Nat :=
  stepBy4Aux (e - s) s e

structure Word where
  address : Nat
  value : Nat
  deriving DecidableEq

/-- `u32::from_le_slice(&code[offset..])`: the 4-byte little-endian word at
`offset` (`util::bytes::FromSlice` is not in `src/`; modelled from the spec's
"4-byte little-endian words"; reading past the end of `code` would panic in
Rust and yields 0-bytes here, unreachable for in-range sections). -/
def leWordAt (code : List Nat) (offset : Nat) : Nat :=
  code.getD offset 0 + 2 ^ 8 * code.getD (offset + 1) 0 + 2 ^ 16 * code.getD (offset + 2) 0 +
    2 ^ 24 * code.getD (offset + 3) 0

/-- `Section::iter_words`: over the requested `range` (the whole section when
`Option.none`), clip the start up to and the end down to multiples of 4, then
read one little-endian word every 4 bytes.  `code` must be the full raw
content of the section. -/
def Section.iter_words (s : Section) (code : List Nat) (range : Option URange) : List Word :=
  let r := range.getD s.address_range
  let start := nextMultipleOf4 r.start
  let e := andNot3 r.stop
  (stepBy4 start e).map (fun address => ⟨address, leWordAt code (address - s.start_address)⟩)

structure Sections where
  /-- insertion-ordered; the `sections_by_name : HashMap<String, SectionIndex>`
  index maps each stored name to its position and is derived here
  (`Sections::add` keeps it in lockstep with the list). -/
  sections : List Section
  deriving DecidableEq

inductive SectionsError
  | duplicateName (name : String)
  | overlapping (name other_name : String)
  deriving DecidableEq

/-- `Sections::new`. -/
def Sections.empty : Sections :=
  ⟨[]⟩

/-- `Sections::add`: duplicate names and overlaps with any existing section
(the first one found is reported) are rejected; otherwise the section is
appended. -/
def Sections.add (ss : Sections) (s : Section) : Except SectionsError Sections :=
  if ss.sections.any (fun t => t.name == s.name) then .error (.duplicateName s.name)
  else
    match ss.sections.find? (fun t => s.overlaps_with t) with
    | Option.some other => .error (.overlapping s.name other.name)
    | Option.none => .ok ⟨ss.sections ++ [s]⟩

/-- `Sections::by_name`: the name index lookup (position plus section). -/
def Sections.by_name (ss : Sections) (name : String) : Option (Nat × Section) :=
  ss.sections.enum.find? (fun p => p.2.name == name)

/-- The `reduce` closure of `Sections::bss_range`:
`|a, b| a.start.min(b.start)..a.end.max(b.end)`. -/
def hullStep (a b : URange) : URange :=
  ⟨min a.start b.start, max a.stop b.stop⟩

/-- `Sections::bss_range`: `reduce` over the Bss sections' address ranges
with `hullStep` (a left fold seeded with the first range). -/
def Sections.bss_range (ss : Sections) : Option URange :=
  match (ss.sections.filter (fun s => s.kind == SectionKind.bss)).map Section.address_range with
  | [] => Option.none
  | r :: rs => Option.some (rs.foldl hullStep r)

/-- A sequence of `Sections::add` calls from an empty collection, the caller
keeping the previous collection whenever an insertion is rejected. -/
def Sections.runAdds (l : List Section) : Sections :=
  l.foldl (fun ss s => match ss.add s with | .ok ss2 => ss2 | .error _ => ss) Sections.empty

inductive SectionParseError
  | unknownSectionKind (value : String)
  | parseStartAddress (value : String)
  | parseEndAddress (value : String)
  | parseAlignment (value : String)
  | unknownAttribute (key : String)
  | missingAttribute (attr : String)
  | sectionError (e : SectionError)
  | notInHeader (name : String)
  | inheritedAttribute (attr : String)
  deriving DecidableEq

/-- `SectionKind::parse`. -/
def SectionKind.parse (value : String) : Except SectionParseError SectionKind :=
  if value = "code" then .ok .code
  else if value = "data" then .ok .data
  else if value = "bss" then .ok .bss
  else .error (.unknownSectionKind value)

/-- The attribute loop of `Section::parse`: (`kind`, `start`, `end`,
`align`). -/
def sectionParseAttrs :
    List (String × String) → Option SectionKind → Option Nat → Option Nat → Option Nat →
    Except SectionParseError (Option SectionKind × Option Nat × Option Nat × Option Nat)
  | [], k, s, e, a => .ok (k, s, e, a)
  | (key, value) :: rest, k, s, e, a =>
    if key = "kind" then
      match SectionKind.parse value with
      | .ok kd => sectionParseAttrs rest (Option.some kd) s e a
      | .error err => .error err
    else if key = "start" then
      match parseU32 value with
      | Option.some n => sectionParseAttrs rest k (Option.some n) e a
      | Option.none => .error (.parseStartAddress value)
    else if key = "end" then
      match parseU32 value with
      | Option.some n => sectionParseAttrs rest k s (Option.some n) a
      | Option.none => .error (.parseEndAddress value)
    else if key = "align" then
      match parseU32 value with
      | Option.some n => sectionParseAttrs rest k s e (Option.some n)
      | Option.none => .error (.parseAlignment value)
    else .error (.unknownAttribute key)

/-- `Section::parse` (a header line): the first word is the section name, the
rest are attributes; a blank line is skipped; the validated constructor
`Section::new` does the final checks. -/
def Section.parse (line : String) : Except SectionParseError (Option Section) :=
  match splitWhitespace line with
  | [] => .ok Option.none
  | name :: rest =>
    match sectionParseAttrs (iterAttributes rest) Option.none Option.none Option.none
        Option.none with
    | .error e => .error e
    | .ok (k, s, e, a) =>
      match k with
      | Option.none => .error (.missingAttribute "kind")
      | Option.some k =>
        match s with
        | Option.none => .error (.missingAttribute "start")
        | Option.some s =>
          match e with
          | Option.none => .error (.missingAttribute "end")
          | Option.some e =>
            match a with
            | Option.none => .error (.missingAttribute "align")
            | Option.some a =>
              match Section.new name k s e a with
              | .error err => .error (.sectionError err)
              | .ok sec => .ok (Option.some sec)

/-- The attribute loop of `Section::parse_inherit`: only `start`/`end` are
allowed (`kind`/`align` are inherited and must be omitted). -/
def sectionInheritAttrs :
    List (String × String) → Option Nat → Option Nat →
    Except SectionParseError (Option Nat × Option Nat)
  | [], s, e => .ok (s, e)
  | (key, value) :: rest, s, e =>
    if key = "kind" then .error (.inheritedAttribute "kind")
    else if key = "start" then
      match parseU32 value with
      | Option.some n => sectionInheritAttrs rest (Option.some n) e
      | Option.none => .error (.parseStartAddress value)
    else if key = "end" then
      match parseU32 value with
      | Option.some n => sectionInheritAttrs rest s (Option.some n)
      | Option.none => .error (.parseEndAddress value)
    else if key = "align" then .error (.inheritedAttribute "align")
    else .error (.unknownAttribute key)

/-- `Section::parse_inherit`: looks the name up in the already-parsed header
`sections` and builds the section with `Section::inherit`. -/
def Section.parse_inherit (line : String) (sections : Sections) :
    Except SectionParseError (Option Section) :=
  match splitWhitespace line with
  | [] => .ok Option.none
  | name :: rest =>
    match sections.by_name name with
    | Option.none => .error (.notInHeader name)
    | Option.some (_, base) =>
      match sectionInheritAttrs (iterAttributes rest) Option.none Option.none with
      | .error e => .error e
      | .ok (s, e) =>
        match s with
        | Option.none => .error (.missingAttribute "start")
        | Option.some s =>
          match e with
          | Option.none => .error (.missingAttribute "end")
          | Option.some e =>
            match Section.inherit base s e with
            | .error err => .error (.sectionError err)
            | .ok sec => .ok (Option.some sec)

/-! ## Specification devices

Definitions below are not translations of repository functions; they name
properties the theorems are stated about. -/

/-- The last record in `rs` whose `from` address is `f` (the record a
sequence of `BTreeMap::insert`s leaves at key `f`). -/
def lastFrom : List Relocation → Nat → Option Relocation
  | [], _ => Option.none
  | r :: rs, f =>
    match lastFrom rs f with
    | Option.some x => Option.some x
    | Option.none => if r.fromAddr = f then Option.some r else Option.none

/-- Pairwise well-formedness of a section collection: distinct names and no
half-open range overlap. -/
def Sections.wellFormed (ss : Sections) : Prop :=
  ss.sections.Pairwise (fun a b =>
    a.name ≠ b.name ∧ ¬(a.start_address < b.end_address ∧ b.start_address < a.end_address))

/-- `line` is accepted by the relocation reader (after comment stripping) and
yields the record `r`. -/
abbrev parsesToRelocation (line : String) (r : Relocation) : Prop :=
  Relocation.parse (stripComment line) = .ok (Option.some r)

/-- The map a list of parsed records leaves behind when inserted in order
with `BTreeMap::insert` (the body of `Relocations::from_file`). -/
def insertAll (rs : List Relocation) (m : Relocations) : Relocations :=
  rs.foldl (fun acc r => btreeInsert acc r.fromAddr r) m

end DsDecomp

namespace DsDecomp

/-! ## Helper lemmas -/

/-- `by_address`/`by_name`/`lookup_symbol_name` are driven purely by the
number of index entries, via `forAddress`/`forName`. -/
theorem byAddress_of_atAddress {m : SymbolMap} {a : Nat} :
    m.byAddress a =
      match m.atAddress a with
      | [] => .ok Option.none
      | [x] => .ok (Option.some x)
      | _ :: _ :: _ => .error () := by
  unfold SymbolMap.byAddress SymbolMap.forAddress
  rcases h : m.atAddress a with _ | ⟨x, _ | ⟨y, l⟩⟩ <;> simp [h]

theorem byName_of_atName {m : SymbolMap} {n : String} :
    m.byName n =
      match m.atName n with
      | [] => .ok Option.none
      | [x] => .ok (Option.some x)
      | _ :: _ :: _ => .error () := by
  unfold SymbolMap.byName SymbolMap.forName
  rcases h : m.atName n with _ | ⟨x, _ | ⟨y, l⟩⟩ <;> simp [h]

end DsDecomp

/-! ## Claims -/

/-- **C7.** For every relocation, the effective addend returned by
`Relocation::addend()` equals the user-specified stored addend plus the
kind-intrinsic pc-relative bias: arm-call = −8, thumb-call = −4,
arm-call-to-thumb = −8, thumb-call-to-arm = −4, arm-branch = −8, load = 0. -/
theorem DsDecomp.c7_effective_addend (r : DsDecomp.Relocation) :
    r.effectiveAddend = r.addend +
      match r.kind with
      | .armCall => (-8 : Int)
      | .thumbCall => -4
      | .armCallThumb => -8
      | .thumbCallArm => -4
      | .armBranch => -8
      | .load => 0 := by
  cases hk : r.kind <;>
    simp [DsDecomp.Relocation.effectiveAddend, DsDecomp.RelocationKind.addend, hk]

/-- **C5.** The claimed relocation round trip fails on the code: the line
`from:0x0 kind:load to:0x4 module:main add:1` is accepted and yields a record
with addend 1, but `Display for Relocation` never emits the `add` attribute,
so the serialized line reparses to a record with addend 0 — not identical
field-by-field even though only the comment is excluded. -/
theorem DsDecomp.c5_relocation_round_trip_drops_addend :
    DsDecomp.Relocation.parse "from:0x0 kind:load to:0x4 module:main add:1" =
      .ok (Option.some ⟨0, 4, 1, .load, .main, Option.none⟩)
    ∧ DsDecomp.Relocation.display ⟨0, 4, 1, .load, .main, Option.none⟩ =
        "from:0x00000000 kind:load to:0x00000004 module:main"
    ∧ DsDecomp.Relocation.parse "from:0x00000000 kind:load to:0x00000004 module:main" =
        .ok (Option.some ⟨0, 4, 0, .load, .main, Option.none⟩)
    ∧ (⟨0, 4, 0, .load, .main, Option.none⟩ : DsDecomp.Relocation) ≠
        ⟨0, 4, 1, .load, .main, Option.none⟩ := by
  decide

/-- **C1 (counterexample).** With two symbols stored at address `0x2000`,
`lookup_symbol_name` does not silently yield nothing: the `by_address` call
inside it panics (modelled as `.error ()`), contradicting the claim that zero
or multiple symbols at the destination yield nothing with no fault of any
kind. -/
theorem DsDecomp.c1_lookup_counterexample :
    DsDecomp.SymbolMap.lookupSymbolName ⟨[⟨"sym_a", .bss, 0x2000⟩, ⟨"sym_b", .bss, 0x2000⟩]⟩
        0 0x2000 = .error ()
    ∧ DsDecomp.SymbolMap.lookupSymbolName ⟨[⟨"sym_a", .bss, 0x2000⟩, ⟨"sym_b", .bss, 0x2000⟩]⟩
        0 0x2000 ≠ .ok Option.none := by
  decide

/-- **C1 (amended).** `lookup_symbol_name(source, destination)` returns the
name of the unique symbol at `destination` when exactly one symbol is stored
there, yields nothing (without fault) when no symbol is stored there, and
panics (the fault of the underlying `by_address`) when more than one symbol
shares that address. -/
theorem DsDecomp.c1_lookup_symbol_name_amended (m : DsDecomp.SymbolMap) (src dest : Nat) :
    (m.atAddress dest = [] → m.lookupSymbolName src dest = .ok Option.none)
    ∧ (∀ i s, m.atAddress dest = [(i, s)] →
        m.lookupSymbolName src dest = .ok (Option.some s.name))
    ∧ (2 ≤ (m.atAddress dest).length → m.lookupSymbolName src dest = .error ()) := by
  refine ⟨fun h => ?_, fun i s h => ?_, fun h => ?_⟩ <;>
    unfold DsDecomp.SymbolMap.lookupSymbolName
  · rw [DsDecomp.byAddress_of_atAddress, h]
  · rw [DsDecomp.byAddress_of_atAddress, h]
  · rw [DsDecomp.byAddress_of_atAddress]
    rcases ha : m.atAddress dest with _ | ⟨x, _ | ⟨y, l⟩⟩ <;> simp [ha] at h ⊢

/-- **C1 (amended, witness).** On a map with exactly one symbol at address 8
the lookup returns its name; with no symbol at address 9 it yields nothing. -/
theorem DsDecomp.c1_lookup_symbol_name_amended_witness :
    DsDecomp.SymbolMap.lookupSymbolName ⟨[⟨"only", .bss, 8⟩]⟩ 0 8 = .ok (Option.some "only")
    ∧ DsDecomp.SymbolMap.lookupSymbolName ⟨[⟨"only", .bss, 8⟩]⟩ 0 9 = .ok Option.none :=
  ⟨(DsDecomp.c1_lookup_symbol_name_amended ⟨[⟨"only", .bss, 8⟩]⟩ 0 8).2.1 0 ⟨"only", .bss, 8⟩
      (by decide),
    (DsDecomp.c1_lookup_symbol_name_amended ⟨[⟨"only", .bss, 8⟩]⟩ 0 9).1 (by decide)⟩

/-- **C8.** On any SymbolMap, the unique accessors `by_address`/`by_name`
fault exactly when two or more symbols share the queried address/name (a
panic for `by_address`, an error return for `by_name`); with exactly one
match they return it; and the multi-accessors `for_address`/`for_name` (whose
index entries `atAddress`/`atName` they expose) contain precisely all
matching symbols, totally, without any fault. -/
theorem DsDecomp.c8_unique_accessors (m : DsDecomp.SymbolMap) (a : Nat) (n : String) :
    (m.byAddress a = .error () ↔ 2 ≤ (m.atAddress a).length)
    ∧ (∀ i s, m.atAddress a = [(i, s)] → m.byAddress a = .ok (Option.some (i, s)))
    ∧ (∀ i s, (i, s) ∈ m.atAddress a ↔ m.symbols[i]? = Option.some s ∧ s.addr = a)
    ∧ (m.forAddress a = if (m.atAddress a).isEmpty then Option.none
        else Option.some (m.atAddress a))
    ∧ (m.byName n = .error () ↔ 2 ≤ (m.atName n).length)
    ∧ (∀ i s, m.atName n = [(i, s)] → m.byName n = .ok (Option.some (i, s)))
    ∧ (∀ i s, (i, s) ∈ m.atName n ↔ m.symbols[i]? = Option.some s ∧ s.name = n) := by
  refine ⟨?_, fun i s h => ?_, fun i s => ?_, rfl, ?_, fun i s h => ?_, fun i s => ?_⟩
  · rw [DsDecomp.byAddress_of_atAddress]
    rcases ha : m.atAddress a with _ | ⟨x, _ | ⟨y, l⟩⟩ <;> simp [ha]
  · rw [DsDecomp.byAddress_of_atAddress, h]
  · simp [DsDecomp.SymbolMap.atAddress, List.mem_filter, List.mk_mem_enum_iff_getElem?]
  · rw [DsDecomp.byName_of_atName]
    rcases ha : m.atName n with _ | ⟨x, _ | ⟨y, l⟩⟩ <;> simp [ha]
  · rw [DsDecomp.byName_of_atName, h]
  · simp [DsDecomp.SymbolMap.atName, List.mem_filter, List.mk_mem_enum_iff_getElem?]

/-- **C8 (witness).** A map holding `dup` at addresses 8 and 8 again: both
unique accessors fault, the single-match accessor returns the unique match,
and the index entry for address 8 holds both symbols. -/
theorem DsDecomp.c8_unique_accessors_witness :
    DsDecomp.SymbolMap.byAddress ⟨[⟨"dup", .bss, 8⟩, ⟨"dup", .bss, 8⟩, ⟨"solo", .bss, 12⟩]⟩ 8 =
      .error ()
    ∧ DsDecomp.SymbolMap.byName ⟨[⟨"dup", .bss, 8⟩, ⟨"dup", .bss, 8⟩, ⟨"solo", .bss, 12⟩]⟩
        "dup" = .error ()
    ∧ DsDecomp.SymbolMap.byAddress ⟨[⟨"dup", .bss, 8⟩, ⟨"dup", .bss, 8⟩, ⟨"solo", .bss, 12⟩]⟩
        12 = .ok (Option.some (2, ⟨"solo", .bss, 12⟩))
    ∧ (0, (⟨"dup", .bss, 8⟩ : DsDecomp.Symbol)) ∈
        DsDecomp.SymbolMap.atAddress ⟨[⟨"dup", .bss, 8⟩, ⟨"dup", .bss, 8⟩, ⟨"solo", .bss, 12⟩]⟩ 8
    ∧ (1, (⟨"dup", .bss, 8⟩ : DsDecomp.Symbol)) ∈
        DsDecomp.SymbolMap.atAddress ⟨[⟨"dup", .bss, 8⟩, ⟨"dup", .bss, 8⟩, ⟨"solo", .bss, 12⟩]⟩
          8 :=
  ⟨(DsDecomp.c8_unique_accessors ⟨[⟨"dup", .bss, 8⟩, ⟨"dup", .bss, 8⟩, ⟨"solo", .bss, 12⟩]⟩ 8
      "dup").1.mpr (by decide),
    (DsDecomp.c8_unique_accessors ⟨[⟨"dup", .bss, 8⟩, ⟨"dup", .bss, 8⟩, ⟨"solo", .bss, 12⟩]⟩ 8
      "dup").2.2.2.2.1.mpr (by decide),
    (DsDecomp.c8_unique_accessors ⟨[⟨"dup", .bss, 8⟩, ⟨"dup", .bss, 8⟩, ⟨"solo", .bss, 12⟩]⟩ 12
      "dup").2.1 2 ⟨"solo", .bss, 12⟩ (by decide),
    ((DsDecomp.c8_unique_accessors ⟨[⟨"dup", .bss, 8⟩, ⟨"dup", .bss, 8⟩, ⟨"solo", .bss, 12⟩]⟩ 8
      "dup").2.2.1 0 ⟨"dup", .bss, 8⟩).mpr (by decide),
    ((DsDecomp.c8_unique_accessors ⟨[⟨"dup", .bss, 8⟩, ⟨"dup", .bss, 8⟩, ⟨"solo", .bss, 12⟩]⟩ 8
      "dup").2.2.1 1 ⟨"dup", .bss, 8⟩).mpr (by decide)⟩

namespace DsDecomp

theorem btreeGet_mem {m : Relocations} {k : Nat} {v : Relocation}
    (h : btreeGet m k = Option.some v) : (k, v) ∈ m := by
  induction m with
  | nil => simp [btreeGet] at h
  | cons hd tl ih =>
    unfold btreeGet at h
    split at h
    · cases h
      subst_vars
      exact List.mem_cons_self _ _
    · exact List.mem_cons_of_mem _ (ih h)

theorem filter_key_singleton {m : Relocations} {k : Nat} {v : Relocation}
    (hnd : (m.map Prod.fst).Nodup) (hmem : (k, v) ∈ m) :
    (m.filter (fun p => p.1 == k)).length = 1 := by
  induction m with
  | nil => cases hmem
  | cons hd tl ih =>
    rw [List.map_cons, List.nodup_cons] at hnd
    rcases List.mem_cons.mp hmem with heq | hmem2
    · subst heq
      have htl : tl.filter (fun p => p.1 == k) = [] := by
        refine List.filter_eq_nil_iff.mpr fun p hp => ?_
        simp only [beq_iff_eq]
        intro hk
        have hin : k ∈ List.map Prod.fst tl := by
          rw [← hk]
          exact List.mem_map_of_mem Prod.fst hp
        exact hnd.1 hin
      simp [List.filter_cons, htl]
    · have hne : (hd.1 == k) = false := by
        simp only [beq_eq_false_iff_ne, ne_eq]
        intro hk
        refine hnd.1 ?_
        rw [hk]
        exact List.mem_map_of_mem Prod.fst hmem2
      simp [List.filter_cons, hne, ih hnd.2 hmem2]

end DsDecomp

/-- **C3 (counterexample).** Two relocations that agree on
(to, addend, kind, module) but differ in the free-text `source` comment are
not `==`-equal, so the second `add` at the occupied `from` address faults
instead of succeeding as the claim states. -/
theorem DsDecomp.c3_add_counterexample :
    DsDecomp.Relocations.add
        [(0x100, ⟨0x100, 0x200, 0, .armCall, .main, Option.some "analysis"⟩)]
        ⟨0x100, 0x200, 0, .armCall, .main, Option.none⟩ =
      .error (.relocationCollision 0x100 0x200 .main 0x200 .main)
    ∧ ((⟨0x100, 0x200, 0, .armCall, .main, Option.some "analysis"⟩ : DsDecomp.Relocation).toAddr,
        (⟨0x100, 0x200, 0, .armCall, .main, Option.some "analysis"⟩ :
          DsDecomp.Relocation).addend,
        (⟨0x100, 0x200, 0, .armCall, .main, Option.some "analysis"⟩ : DsDecomp.Relocation).kind,
        (⟨0x100, 0x200, 0, .armCall, .main, Option.some "analysis"⟩ :
          DsDecomp.Relocation).module) =
      ((⟨0x100, 0x200, 0, .armCall, .main, Option.none⟩ : DsDecomp.Relocation).toAddr,
        (⟨0x100, 0x200, 0, .armCall, .main, Option.none⟩ : DsDecomp.Relocation).addend,
        (⟨0x100, 0x200, 0, .armCall, .main, Option.none⟩ : DsDecomp.Relocation).kind,
        (⟨0x100, 0x200, 0, .armCall, .main, Option.none⟩ : DsDecomp.Relocation).module) := by
  decide

/-- **C3 (amended).** Calling `add` with a relocation whose `from` address is
already occupied succeeds exactly when the new record equals the stored one
in every field — (to, addend, kind, module) and also the free-text `source`
comment — leaving the table unchanged with the one stored entry at that
address (the duplicate is only logged); any field difference makes `add`
return a collision fault reporting both the new and the previously stored
(to, module) pair, leaving the table unchanged. -/
theorem DsDecomp.c3_add_amended (m : DsDecomp.Relocations) (r prev : DsDecomp.Relocation)
    (hocc : DsDecomp.btreeGet m r.fromAddr = Option.some prev) :
    (m.add r = .ok m ↔ r = prev)
    ∧ (r ≠ prev → m.add r =
        .error (.relocationCollision r.fromAddr r.toAddr r.module prev.toAddr prev.module))
    ∧ ((m.map Prod.fst).Nodup → (m.filter (fun p => p.1 == r.fromAddr)).length = 1) := by
  unfold DsDecomp.Relocations.add
  rw [hocc]
  refine ⟨?_, fun hne => ?_, fun hnd => ?_⟩
  · by_cases h : prev = r <;> simp [h]
    exact fun hc => h hc.symm
  · have h : ¬(prev = r) := fun hc => hne hc.symm
    simp [h]
  · exact DsDecomp.filter_key_singleton hnd (DsDecomp.btreeGet_mem hocc)

/-- **C3 (amended, witness).** Re-adding the identical record (all fields
equal) succeeds and leaves the single-entry table unchanged; changing `to`
faults with both (to, module) pairs reported. -/
theorem DsDecomp.c3_add_amended_witness :
    DsDecomp.Relocations.add [(0x100, ⟨0x100, 0x200, 0, .armCall, .main, Option.none⟩)]
        ⟨0x100, 0x200, 0, .armCall, .main, Option.none⟩ =
      .ok [(0x100, ⟨0x100, 0x200, 0, .armCall, .main, Option.none⟩)]
    ∧ DsDecomp.Relocations.add [(0x100, ⟨0x100, 0x200, 0, .armCall, .main, Option.none⟩)]
        ⟨0x100, 0x300, 0, .armCall, .main, Option.none⟩ =
      .error (.relocationCollision 0x100 0x300 .main 0x200 .main) :=
  ⟨(DsDecomp.c3_add_amended [(0x100, ⟨0x100, 0x200, 0, .armCall, .main, Option.none⟩)]
      ⟨0x100, 0x200, 0, .armCall, .main, Option.none⟩
      ⟨0x100, 0x200, 0, .armCall, .main, Option.none⟩ (by decide)).1.mpr (by decide),
    (DsDecomp.c3_add_amended [(0x100, ⟨0x100, 0x200, 0, .armCall, .main, Option.none⟩)]
      ⟨0x100, 0x300, 0, .armCall, .main, Option.none⟩
      ⟨0x100, 0x200, 0, .armCall, .main, Option.none⟩ (by decide)).2.1 (by decide)⟩

namespace DsDecomp

theorem btreeGet_insert (m : Relocations) (k : Nat) (v : Relocation) (f : Nat) :
    btreeGet (btreeInsert m k v) f = if f = k then Option.some v else btreeGet m f := by
  induction m with
  | nil => simp [btreeInsert, btreeGet]
  | cons hd tl ih =>
    rcases hd with ⟨k1, v1⟩
    unfold btreeInsert
    by_cases h1 : k < k1
    · rw [if_pos h1]
      rfl
    · by_cases h2 : k = k1
      · rw [if_neg h1, if_pos h2]
        subst h2
        by_cases hf : f = k <;> simp [btreeGet, hf]
      · rw [if_neg h1, if_neg h2]
        show (if f = k1 then Option.some v1 else btreeGet (btreeInsert tl k v) f) = _
        rw [ih]
        have hrhs : btreeGet ((k1, v1) :: tl) f =
            if f = k1 then Option.some v1 else btreeGet tl f := rfl
        rw [hrhs]
        by_cases hf1 : f = k1
        · have h3 : ¬(f = k) := by omega
          simp only [if_pos hf1, if_neg h3]
        · simp only [if_neg hf1]

theorem insertAll_get (rs : List Relocation) (m : Relocations) (f : Nat) :
    btreeGet (insertAll rs m) f =
      match lastFrom rs f with
      | Option.some x => Option.some x
      | Option.none => btreeGet m f := by
  induction rs generalizing m with
  | nil => simp [insertAll, lastFrom]
  | cons r rs ih =>
    show btreeGet (insertAll rs (btreeInsert m r.fromAddr r)) f = _
    rw [ih]
    rcases h : lastFrom rs f with _ | x
    · have hcons : lastFrom (r :: rs) f =
          if r.fromAddr = f then Option.some r else Option.none := by
        unfold lastFrom
        rw [h]
      rw [hcons, btreeGet_insert]
      by_cases hf : f = r.fromAddr
      · simp [hf]
      · have hrf : ¬(r.fromAddr = f) := fun hc => hf hc.symm
        simp [hf, hrf]
    · have hcons : lastFrom (r :: rs) f = Option.some x := by
        unfold lastFrom
        rw [h]
      rw [hcons]

theorem lastFrom_eq_none {rs : List Relocation} {f : Nat}
    (h : ∀ r ∈ rs, r.fromAddr ≠ f) : lastFrom rs f = Option.none := by
  induction rs with
  | nil => rfl
  | cons r rs ih =>
    unfold lastFrom
    rw [ih (fun x hx => h x (List.mem_cons_of_mem _ hx))]
    simp [h r (List.mem_cons_self _ _)]

theorem lastFrom_spec (rs : List Relocation) (j : Nat) (hj : j < rs.length) (f : Nat)
    (hf : (rs.get ⟨j, hj⟩).fromAddr = f)
    (hlater : ∀ k (hk : k < rs.length), j < k → (rs.get ⟨k, hk⟩).fromAddr ≠ f) :
    lastFrom rs f = Option.some (rs.get ⟨j, hj⟩) := by
  induction rs generalizing j with
  | nil => exact absurd hj (Nat.not_lt_zero j)
  | cons r rs ih =>
    cases j with
    | zero =>
      have htail : lastFrom rs f = Option.none := by
        refine lastFrom_eq_none fun x hx => ?_
        obtain ⟨⟨k, hk⟩, hget⟩ := List.mem_iff_get.mp hx
        have h2 := hlater (k + 1) (by simpa using Nat.succ_lt_succ hk) (Nat.succ_pos k)
        rw [← hget]
        simpa using h2
      unfold lastFrom
      rw [htail]
      simp at hf
      simp [hf]
    | succ j =>
      have hj2 : j < rs.length := Nat.lt_of_succ_lt_succ hj
      have ihres := ih j hj2 (by simpa using hf)
        (fun k hk hjk => by
          have := hlater (k + 1) (Nat.succ_lt_succ hk) (Nat.succ_lt_succ hjk)
          simpa using this)
      unfold lastFrom
      rw [ihres]
      simp

theorem fromLines_forall₂ {lines : List String} {rs : List Relocation}
    (h : List.Forall₂ parsesToRelocation lines rs) (m : Relocations) :
    Relocations.fromLines lines m = .ok (insertAll rs m) := by
  induction h generalizing m with
  | nil => rfl
  | cons hlr hrest ih =>
    rename_i line r lines2 rs2
    show Relocations.fromLines (line :: lines2) m = _
    unfold Relocations.fromLines
    rw [hlr]
    exact ih (btreeInsert m r.fromAddr r)

end DsDecomp

/-- **C4.** When `Relocations::from_file` reads a file whose every line
parses to a record and two records `rs[i]`, `rs[j]` (`i < j`) share a `from`
address but differ in (to, addend, kind, module), and no later record reuses
that address, the load still succeeds — the collision check of `add` is never
applied — and the resulting table holds exactly the later record `rs[j]` at
that address. -/
theorem DsDecomp.c4_from_file_last_wins (lines : List String) (rs : List DsDecomp.Relocation)
    (hparse : List.Forall₂ DsDecomp.parsesToRelocation lines rs)
    (i j : Nat) (hi : i < rs.length) (hj : j < rs.length) (_hij : i < j)
    (_hsame : (rs.get ⟨i, hi⟩).fromAddr = (rs.get ⟨j, hj⟩).fromAddr)
    (_hdiff : ((rs.get ⟨i, hi⟩).toAddr, (rs.get ⟨i, hi⟩).addend, (rs.get ⟨i, hi⟩).kind,
        (rs.get ⟨i, hi⟩).module) ≠
      ((rs.get ⟨j, hj⟩).toAddr, (rs.get ⟨j, hj⟩).addend, (rs.get ⟨j, hj⟩).kind,
        (rs.get ⟨j, hj⟩).module))
    (hlast : ∀ k (hk : k < rs.length), j < k →
      (rs.get ⟨k, hk⟩).fromAddr ≠ (rs.get ⟨j, hj⟩).fromAddr) :
    ∃ t, DsDecomp.Relocations.fromFile lines = .ok t ∧
      t.get ((rs.get ⟨j, hj⟩).fromAddr) = Option.some (rs.get ⟨j, hj⟩) := by
  refine ⟨DsDecomp.insertAll rs [], DsDecomp.fromLines_forall₂ hparse [], ?_⟩
  show DsDecomp.btreeGet _ _ = _
  rw [DsDecomp.insertAll_get, DsDecomp.lastFrom_spec rs j hj _ rfl hlast]

/-- **C4 (witness).** A two-line file with colliding `from:0x100` records
(`to:0x200` then `to:0x300`) loads without fault and keeps only the second
record. -/
theorem DsDecomp.c4_from_file_last_wins_witness :
    ∃ t, DsDecomp.Relocations.fromFile
        ["from:0x100 kind:arm_call to:0x200 module:main",
          "from:0x100 kind:arm_call to:0x300 module:main"] = .ok t ∧
      t.get 0x100 = Option.some ⟨0x100, 0x300, 0, .armCall, .main, Option.none⟩ :=
  DsDecomp.c4_from_file_last_wins
    ["from:0x100 kind:arm_call to:0x200 module:main",
      "from:0x100 kind:arm_call to:0x300 module:main"]
    [⟨0x100, 0x200, 0, .armCall, .main, Option.none⟩,
      ⟨0x100, 0x300, 0, .armCall, .main, Option.none⟩]
    (List.Forall₂.cons (by decide) (List.Forall₂.cons (by decide) List.Forall₂.nil))
    0 1 (by decide) (by decide) (by decide) (by decide) (by decide)
    (fun k hk h1 => by
      simp only [List.length_cons, List.length_nil] at hk
      omega)

namespace DsDecomp

theorem isPowerOfTwo_iff {n : Nat} : isPowerOfTwo n = true ↔ ∃ k, k < 32 ∧ n = 2 ^ k := by
  simp [isPowerOfTwo, List.any_eq_true, List.mem_range]

theorem mask_align {s k : Nat} : s &&& (2 ^ k - 1) = 0 ↔ s % 2 ^ k = 0 := by
  rw [Nat.and_pow_two_sub_one_eq_mod]

theorem with_functions_ok {name : String} {kind : SectionKind} {s e a : Nat}
    {fns : List (Nat × Function)} {sec : Section} :
    Section.with_functions name kind s e a fns = .ok sec ↔
      sec = ⟨name, kind, s, e, a, fns⟩ ∧ s ≤ e ∧ isPowerOfTwo a = true ∧ s &&& (a - 1) = 0 := by
  unfold Section.with_functions
  split_ifs with h1 h2 h3
  · constructor
    · intro h
      cases h
    · rintro ⟨-, hse, -, -⟩
      omega
  · constructor
    · intro h
      cases h
    · rintro ⟨-, -, hp, -⟩
      rw [hp] at h2
      cases h2
  · constructor
    · intro h
      cases h
    · rintro ⟨-, -, -, hm⟩
      exact h3 hm
  · constructor
    · intro h
      injection h with h
      refine ⟨h.symm, by omega, ?_, by simpa using h3⟩
      simpa using h2
    · rintro ⟨rfl, -, -, -⟩
      rfl

theorem with_functions_invariants {name : String} {kind : SectionKind} {s e a : Nat}
    {fns : List (Nat × Function)} {sec : Section}
    (h : Section.with_functions name kind s e a fns = .ok sec) :
    sec = ⟨name, kind, s, e, a, fns⟩ ∧ s ≤ e ∧ sec.start_address % sec.alignment = 0 ∧
      ∃ k, sec.alignment = 2 ^ k := by
  obtain ⟨rfl, hse, hp, hm⟩ := with_functions_ok.mp h
  obtain ⟨k, -, rfl⟩ := isPowerOfTwo_iff.mp hp
  exact ⟨rfl, hse, mask_align.mp hm, k, rfl⟩

theorem inherit_ok {other : Section} {s e : Nat} {sec : Section} :
    Section.inherit other s e = .ok sec ↔
      s ≤ e ∧ sec = ⟨other.name, other.kind, s, e, other.alignment, []⟩ := by
  unfold Section.inherit
  split_ifs with h1
  · constructor
    · intro h
      cases h
    · rintro ⟨hse, -⟩
      omega
  · constructor
    · intro h
      injection h with h
      exact ⟨by omega, h.symm⟩
    · rintro ⟨-, rfl⟩
      rfl

theorem section_parse_ok {line : String} {sec : Section}
    (h : Section.parse line = .ok (Option.some sec)) :
    ∃ name kind s e a, Section.with_functions name kind s e a [] = .ok sec := by
  unfold Section.parse at h
  split at h
  · simp at h
  · split at h
    · simp at h
    · split at h
      · simp at h
      · split at h
        · simp at h
        · split at h
          · simp at h
          · split at h
            · simp at h
            · split at h
              · simp at h
              · rename_i sec2 heq
                injection h with h2
                injection h2 with h3
                subst h3
                exact ⟨_, _, _, _, _, heq⟩

theorem section_parse_inherit_ok {line : String} {ss : Sections} {sec : Section}
    (h : Section.parse_inherit line ss = .ok (Option.some sec)) :
    ∃ base s e, base ∈ ss.sections ∧ Section.inherit base s e = .ok sec := by
  unfold Section.parse_inherit at h
  split at h
  · simp at h
  · split at h
    · simp at h
    · rename_i idx base hfind
      split at h
      · simp at h
      · split at h
        · simp at h
        · split at h
          · simp at h
          · split at h
            · simp at h
            · rename_i sec2 heq
              injection h with h2
              injection h2 with h3
              subst h3
              refine ⟨base, _, _, ?_, heq⟩
              have hmem := List.mem_of_find?_eq_some hfind
              have hget := List.mk_mem_enum_iff_getElem?.mp hmem
              exact List.getElem?_mem hget

end DsDecomp

/-- **C2 (counterexample).** `Section::inherit` does not re-check start
alignment: inheriting from a valid section with alignment 4 while supplying
the misaligned start `0x1001` succeeds, producing an observable section with
`start_address mod alignment = 1 ≠ 0`. -/
theorem DsDecomp.c2_inherit_counterexample :
    DsDecomp.Section.with_functions "base" .code 0x1000 0x1010 4 [] =
      .ok ⟨"base", .code, 0x1000, 0x1010, 4, []⟩
    ∧ DsDecomp.Section.inherit ⟨"base", .code, 0x1000, 0x1010, 4, []⟩ 0x1001 0x1002 =
        .ok ⟨"base", .code, 0x1001, 0x1002, 4, []⟩
    ∧ (0x1001 : Nat) % 4 = 1 := by
  decide

/-- **C2 (amended).** Sections built by `new`/`with_functions` — and hence by
parsing a header line, which constructs through `Section::new` — satisfy
`start_address mod alignment = 0` with a power-of-two alignment, and any
input violating end ≥ start, power-of-two alignment, or start alignment fails
before any section state is stored.  `Section::inherit` (and hence an inherit
line) validates only `end ≥ start`: it copies kind and alignment from the
base section unchecked, so an inherited section's alignment is a power of two
whenever the base's is, but its start address need not be a multiple of the
alignment. -/
theorem DsDecomp.c2_section_construction_amended :
    (∀ (name : String) (kind : DsDecomp.SectionKind) (s e a : Nat)
        (fns : List (Nat × DsDecomp.Function)) (sec : DsDecomp.Section),
      DsDecomp.Section.with_functions name kind s e a fns = .ok sec →
        sec = ⟨name, kind, s, e, a, fns⟩ ∧ sec.start_address % sec.alignment = 0 ∧
          ∃ k, sec.alignment = 2 ^ k)
    ∧ (∀ (name : String) (kind : DsDecomp.SectionKind) (s e a : Nat)
        (fns : List (Nat × DsDecomp.Function)), a < 2 ^ 32 →
        ((∃ sec, DsDecomp.Section.with_functions name kind s e a fns = .ok sec) ↔
          s ≤ e ∧ (∃ k, a = 2 ^ k) ∧ s % a = 0))
    ∧ (∀ (other : DsDecomp.Section) (s e : Nat) (sec : DsDecomp.Section),
        DsDecomp.Section.inherit other s e = .ok sec →
          s ≤ e ∧ sec.name = other.name ∧ sec.kind = other.kind ∧
            sec.alignment = other.alignment ∧ sec.start_address = s ∧ sec.end_address = e)
    ∧ (∀ (line : String) (sec : DsDecomp.Section),
        DsDecomp.Section.parse line = .ok (Option.some sec) →
          sec.start_address % sec.alignment = 0 ∧ ∃ k, sec.alignment = 2 ^ k)
    ∧ (∀ (line : String) (ss : DsDecomp.Sections) (sec : DsDecomp.Section),
        DsDecomp.Section.parse_inherit line ss = .ok (Option.some sec) →
          sec.start_address ≤ sec.end_address ∧
            ∃ base ∈ ss.sections, sec.kind = base.kind ∧ sec.alignment = base.alignment) := by
  refine ⟨fun name kind s e a fns sec h => ?_, fun name kind s e a fns ha => ?_,
    fun other s e sec h => ?_, fun line sec h => ?_, fun line ss sec h => ?_⟩
  · obtain ⟨heq, -, hmod, hpow⟩ := DsDecomp.with_functions_invariants h
    exact ⟨heq, hmod, hpow⟩
  · constructor
    · rintro ⟨sec, h⟩
      obtain ⟨rfl, hse, hmod, k, hk⟩ := DsDecomp.with_functions_invariants h
      exact ⟨hse, ⟨k, hk⟩, hmod⟩
    · rintro ⟨hse, ⟨k, rfl⟩, hmod⟩
      have hk32 : k < 32 := by
        have h1 : (2 : Nat) ^ k < 2 ^ 32 := ha
        exact (Nat.pow_lt_pow_iff_right (by omega)).mp h1
      refine ⟨⟨name, kind, s, e, 2 ^ k, fns⟩, DsDecomp.with_functions_ok.mpr
        ⟨rfl, hse, DsDecomp.isPowerOfTwo_iff.mpr ⟨k, hk32, rfl⟩, DsDecomp.mask_align.mpr hmod⟩⟩
  · obtain ⟨hse, rfl⟩ := DsDecomp.inherit_ok.mp h
    exact ⟨hse, rfl, rfl, rfl, rfl, rfl⟩
  · obtain ⟨name, kind, s, e, a, hw⟩ := DsDecomp.section_parse_ok h
    obtain ⟨-, -, hmod, hpow⟩ := DsDecomp.with_functions_invariants hw
    exact ⟨hmod, hpow⟩
  · obtain ⟨base, s, e, hbase, hinh⟩ := DsDecomp.section_parse_inherit_ok h
    obtain ⟨hse, rfl⟩ := DsDecomp.inherit_ok.mp hinh
    exact ⟨hse, base, hbase, rfl, rfl⟩

/-- **C2 (amended, witness).** The amended facts evaluated on concrete
sections: a header-parsed section satisfies both invariants, constructing at
a misaligned start fails, and a concrete `inherit` result copies kind and
alignment. -/
theorem DsDecomp.c2_section_construction_amended_witness :
    ((⟨"main", .code, 0x1000, 0x1010, 4, []⟩ : DsDecomp.Section).start_address %
        (⟨"main", .code, 0x1000, 0x1010, 4, []⟩ : DsDecomp.Section).alignment = 0
      ∧ ∃ k, (⟨"main", .code, 0x1000, 0x1010, 4, []⟩ : DsDecomp.Section).alignment = 2 ^ k)
    ∧ ¬∃ sec, DsDecomp.Section.with_functions "x" .code 0x1001 0x1002 4 [] = .ok sec :=
  ⟨(DsDecomp.c2_section_construction_amended.2.2.2.1
      "main kind:code start:0x1000 end:0x1010 align:4" ⟨"main", .code, 0x1000, 0x1010, 4, []⟩
      (by decide)),
    fun hex => by
      have h2 := (DsDecomp.c2_section_construction_amended.2.1 "x" .code 0x1001 0x1002 4 []
        (by decide)).mp hex
      have h3 : ¬((0x1001 : Nat) % 4 = 0) := by decide
      exact h3 h2.2.2⟩

namespace DsDecomp

theorem overlaps_with_iff {s t : Section} :
    s.overlaps_with t = true ↔
      s.start_address < t.end_address ∧ t.start_address < s.end_address := by
  simp [Section.overlaps_with]

theorem sections_add_ok {ss : Sections} {s : Section} {ss2 : Sections}
    (h : ss.add s = .ok ss2) :
    ss2.sections = ss.sections ++ [s] ∧ (∀ t ∈ ss.sections, t.name ≠ s.name) ∧
      ∀ t ∈ ss.sections, s.overlaps_with t = false := by
  unfold Sections.add at h
  split at h
  · cases h
  · rename_i h1
    split at h
    · cases h
    · rename_i hfind
      injection h with h2
      subst h2
      refine ⟨rfl, fun t ht hn => ?_, fun t ht => ?_⟩
      · rw [Bool.not_eq_true] at h1
        have := List.any_eq_false.mp h1 t ht
        simp only [beq_iff_eq] at this
        exact this hn
      · have := List.find?_eq_none.mp hfind t ht
        simpa using this

theorem sections_add_error_iff {ss : Sections} {s : Section} :
    (∃ err, ss.add s = .error err) ↔
      (∃ t ∈ ss.sections, t.name = s.name) ∨
        ∃ t ∈ ss.sections, s.start_address < t.end_address ∧ t.start_address < s.end_address := by
  unfold Sections.add
  by_cases h1 : (ss.sections.any (fun t => t.name == s.name)) = true
  · rw [if_pos h1]
    constructor
    · intro _
      left
      obtain ⟨t, ht, hname⟩ := List.any_eq_true.mp h1
      exact ⟨t, ht, by simpa using hname⟩
    · intro _
      exact ⟨_, rfl⟩
  · rw [if_neg h1]
    rcases hfind : ss.sections.find? (fun t => s.overlaps_with t) with _ | other
    · constructor
      · rintro ⟨err, herr⟩
        cases herr
      · intro hor
        exfalso
        rcases hor with ⟨t, ht, hn⟩ | ⟨t, ht, ho⟩
        · exact h1 (List.any_eq_true.mpr ⟨t, ht, by simpa using hn⟩)
        · have hnone := List.find?_eq_none.mp hfind t ht
          exact hnone (overlaps_with_iff.mpr ho)
    · constructor
      · intro _
        right
        have hmem := List.mem_of_find?_eq_some hfind
        have hov := List.find?_some hfind
        exact ⟨other, hmem, overlaps_with_iff.mp hov⟩
      · intro _
        exact ⟨_, rfl⟩

theorem sections_add_wf {ss : Sections} {s : Section} {ss2 : Sections}
    (hwf : ss.wellFormed) (h : ss.add s = .ok ss2) : ss2.wellFormed := by
  obtain ⟨happ, hname, hov⟩ := sections_add_ok h
  unfold Sections.wellFormed at hwf ⊢
  rw [happ, List.pairwise_append]
  refine ⟨hwf, List.pairwise_singleton _ _, ?_⟩
  intro t ht s2 hs2
  simp only [List.mem_singleton] at hs2
  rw [hs2]
  refine ⟨hname t ht, fun hcon => ?_⟩
  have hb := hov t ht
  have ht2 : s.overlaps_with t = true := overlaps_with_iff.mpr ⟨hcon.2, hcon.1⟩
  rw [ht2] at hb
  cases hb

theorem runAdds_loop_wf (l : List Section) (ss : Sections) (hwf : ss.wellFormed) :
    (l.foldl (fun acc s => match acc.add s with | .ok ss2 => ss2 | .error _ => acc)
      ss).wellFormed := by
  induction l generalizing ss with
  | nil => exact hwf
  | cons s l ih =>
    show (l.foldl _ (match ss.add s with | .ok ss2 => ss2 | .error _ => ss)).wellFormed
    rcases hadd : ss.add s with err | ss2
    · simp only [hadd]
      exact ih _ hwf
    · simp only [hadd]
      exact ih _ (sections_add_wf hwf hadd)

end DsDecomp

/-- **C6.** `Sections::add` fails exactly when the new section's name equals
a stored section's name or its half-open range overlaps a stored section's
range (`A.start < B.end ∧ B.start < A.end`); a failed `add` returns the error
without producing a new collection (the caller's collection is untouched); a
successful `add` appends the section at the end, in insertion order; and
after any sequence of `add` calls from the empty collection (keeping the old
collection on failure) no two stored sections overlap or share a name. -/
theorem DsDecomp.c6_sections_add (ss : DsDecomp.Sections) (s : DsDecomp.Section) :
    ((∃ err, ss.add s = .error err) ↔
      (∃ t ∈ ss.sections, t.name = s.name) ∨
        ∃ t ∈ ss.sections, s.start_address < t.end_address ∧ t.start_address < s.end_address)
    ∧ (∀ ss2, ss.add s = .ok ss2 → ss2.sections = ss.sections ++ [s])
    ∧ (ss.wellFormed → ∀ ss2, ss.add s = .ok ss2 → ss2.wellFormed)
    ∧ ∀ l : List DsDecomp.Section, (DsDecomp.Sections.runAdds l).wellFormed :=
  ⟨DsDecomp.sections_add_error_iff,
    fun _ h => (DsDecomp.sections_add_ok h).1,
    fun hwf _ h => DsDecomp.sections_add_wf hwf h,
    fun l => DsDecomp.runAdds_loop_wf l DsDecomp.Sections.empty (List.Pairwise.nil)⟩

/-- **C6 (witness).** Concretely: adding a section overlapping `[0,4)` fails;
adding a disjoint one appends it; a three-add sequence with one rejected
insertion leaves a well-formed collection. -/
theorem DsDecomp.c6_sections_add_witness :
    (∃ err, DsDecomp.Sections.add ⟨[⟨"a", .code, 0, 4, 1, []⟩]⟩ ⟨"b", .code, 2, 8, 1, []⟩ =
      .error err)
    ∧ (⟨[⟨"a", .code, 0, 4, 1, []⟩, ⟨"c", .data, 8, 12, 4, []⟩]⟩ :
          DsDecomp.Sections).sections =
        [⟨"a", .code, 0, 4, 1, []⟩] ++ [⟨"c", .data, 8, 12, 4, []⟩]
    ∧ (DsDecomp.Sections.runAdds
        [⟨"a", .code, 0, 4, 1, []⟩, ⟨"b", .code, 2, 8, 1, []⟩,
          ⟨"c", .data, 8, 12, 4, []⟩]).wellFormed :=
  ⟨(DsDecomp.c6_sections_add ⟨[⟨"a", .code, 0, 4, 1, []⟩]⟩ ⟨"b", .code, 2, 8, 1, []⟩).1.mpr
      (Or.inr ⟨⟨"a", .code, 0, 4, 1, []⟩, by decide, by decide, by decide⟩),
    (DsDecomp.c6_sections_add ⟨[⟨"a", .code, 0, 4, 1, []⟩]⟩ ⟨"c", .data, 8, 12, 4, []⟩).2.1
      ⟨[⟨"a", .code, 0, 4, 1, []⟩, ⟨"c", .data, 8, 12, 4, []⟩]⟩ (by decide),
    (DsDecomp.c6_sections_add ⟨[]⟩ ⟨"a", .code, 0, 4, 1, []⟩).2.2.2
      [⟨"a", .code, 0, 4, 1, []⟩, ⟨"b", .code, 2, 8, 1, []⟩, ⟨"c", .data, 8, 12, 4, []⟩]⟩

namespace DsDecomp

theorem stepBy4Aux_eq (fuel : Nat) : ∀ s e, e - s ≤ fuel →
    stepBy4Aux fuel s e = (List.range ((e - s + 3) / 4)).map (fun k => s + 4 * k) := by
  induction fuel with
  | zero =>
    intro s e h
    have h0 : e - s = 0 := by omega
    simp [stepBy4Aux, h0]
  | succ fuel ih =>
    intro s e h
    unfold stepBy4Aux
    by_cases hse : s < e
    · rw [if_pos hse, ih (s + 4) e (by omega)]
      have hq : (e - s + 3) / 4 = (e - (s + 4) + 3) / 4 + 1 := by omega
      have hf : ((fun k => s + 4 * k) ∘ fun k => k + 1) = fun k => s + 4 + 4 * k := by
        funext k
        show s + 4 * (k + 1) = s + 4 + 4 * k
        omega
      rw [hq, List.range_succ_eq_map, List.map_cons, List.map_map, hf]
      norm_num
    · rw [if_neg hse]
      have h0 : e - s = 0 := by omega
      simp [h0]

theorem stepBy4_eq (s e : Nat) :
    stepBy4 s e = (List.range ((e - s + 3) / 4)).map (fun k => s + 4 * k) :=
  stepBy4Aux_eq (e - s) s e (Nat.le_refl _)

end DsDecomp

/-- **C9.** For every section with its full raw content and every requested
range (defaulting to the whole section), `iter_words` yields exactly the
4-byte little-endian words whose addresses run from the range start rounded
up to the next multiple of 4, in steps of 4, strictly below the range end
rounded down to a multiple of 4 — equivalently, the word-aligned addresses
whose 4 bytes lie fully inside the range; trailing bytes are silently
excluded.  In particular, over section `[0x1000, 0x100A)` with its 10 raw
bytes it yields words at `0x1000` and `0x1004` only, with no fault. -/
theorem DsDecomp.c9_iter_words (sec : DsDecomp.Section) (code : List Nat) (r : DsDecomp.URange) :
    ((sec.iter_words code (Option.some r)).map DsDecomp.Word.address =
      (List.range ((DsDecomp.andNot3 r.stop - DsDecomp.nextMultipleOf4 r.start) / 4)).map
        (fun k => DsDecomp.nextMultipleOf4 r.start + 4 * k))
    ∧ (∀ a, a ∈ (sec.iter_words code (Option.some r)).map DsDecomp.Word.address ↔
        a % 4 = 0 ∧ r.start ≤ a ∧ a + 4 ≤ r.stop)
    ∧ sec.iter_words code Option.none = sec.iter_words code (Option.some sec.address_range)
    ∧ (∀ w ∈ sec.iter_words code (Option.some r),
        w.value = DsDecomp.leWordAt code (w.address - sec.start_address))
    ∧ DsDecomp.Section.iter_words ⟨".data", .data, 0x1000, 0x100A, 4, []⟩
        [1, 2, 3, 4, 5, 6, 7, 8, 9, 10] Option.none =
      [⟨0x1000, 0x04030201⟩, ⟨0x1004, 0x08070605⟩] := by
  obtain ⟨S, hS1, hS2, hS3⟩ : ∃ S, DsDecomp.nextMultipleOf4 r.start = 4 * S ∧
      r.start ≤ 4 * S ∧ 4 * S < r.start + 4 := by
    refine ⟨(r.start + 3) / 4, ?_, by omega, by omega⟩
    show (r.start + 3) / 4 * 4 = 4 * ((r.start + 3) / 4)
    omega
  obtain ⟨E, hE1, hE2, hE3⟩ : ∃ E, DsDecomp.andNot3 r.stop = 4 * E ∧
      4 * E ≤ r.stop ∧ r.stop < 4 * E + 4 := by
    refine ⟨r.stop / 4, ?_, by omega, by omega⟩
    show r.stop / 4 * 4 = 4 * (r.stop / 4)
    omega
  have hmap : (sec.iter_words code (Option.some r)).map DsDecomp.Word.address =
      DsDecomp.stepBy4 (DsDecomp.nextMultipleOf4 r.start) (DsDecomp.andNot3 r.stop) := by
    show (((DsDecomp.stepBy4 (DsDecomp.nextMultipleOf4 r.start)
        (DsDecomp.andNot3 r.stop)).map (fun address =>
          ({ address := address,
             value := DsDecomp.leWordAt code (address - sec.start_address) } :
            DsDecomp.Word))).map DsDecomp.Word.address) = _
    rw [List.map_map]
    exact List.map_id _
  have hprog : (sec.iter_words code (Option.some r)).map DsDecomp.Word.address =
      (List.range ((DsDecomp.andNot3 r.stop - DsDecomp.nextMultipleOf4 r.start) / 4)).map
        (fun k => DsDecomp.nextMultipleOf4 r.start + 4 * k) := by
    have hcount : (DsDecomp.andNot3 r.stop - DsDecomp.nextMultipleOf4 r.start + 3) / 4 =
        (DsDecomp.andNot3 r.stop - DsDecomp.nextMultipleOf4 r.start) / 4 := by
      rw [hS1, hE1]
      omega
    rw [hmap, DsDecomp.stepBy4_eq, hcount]
  refine ⟨hprog, fun a => ?_, rfl, fun w hw => ?_, by decide⟩
  · rw [hprog]
    simp only [List.mem_map, List.mem_range]
    constructor
    · rintro ⟨k, hk, rfl⟩
      rw [hS1, hE1] at hk
      rw [hS1]
      omega
    · rintro ⟨h1, h2, h3⟩
      rw [hS1, hE1]
      refine ⟨(a - 4 * S) / 4, ?_, ?_⟩ <;> omega
  · have hw2 : w ∈ (DsDecomp.stepBy4 (DsDecomp.nextMultipleOf4 r.start)
        (DsDecomp.andNot3 r.stop)).map (fun address =>
          ({ address := address,
             value := DsDecomp.leWordAt code (address - sec.start_address) } :
            DsDecomp.Word)) := hw
    simp only [List.mem_map] at hw2
    obtain ⟨a, -, rfl⟩ := hw2
    rfl

/-- **C9 (witness).** The membership characterization evaluated at address
`0x1004` of the range `[0x1000, 0x100A)`: it is yielded, while `0x1008` (word
would overrun the range) is not. -/
theorem DsDecomp.c9_iter_words_witness :
    (0x1004 ∈ (DsDecomp.Section.iter_words ⟨".data", .data, 0x1000, 0x100A, 4, []⟩
        [1, 2, 3, 4, 5, 6, 7, 8, 9, 10] (Option.some ⟨0x1000, 0x100A⟩)).map
        DsDecomp.Word.address)
    ∧ ¬(0x1008 ∈ (DsDecomp.Section.iter_words ⟨".data", .data, 0x1000, 0x100A, 4, []⟩
        [1, 2, 3, 4, 5, 6, 7, 8, 9, 10] (Option.some ⟨0x1000, 0x100A⟩)).map
        DsDecomp.Word.address) :=
  ⟨((DsDecomp.c9_iter_words ⟨".data", .data, 0x1000, 0x100A, 4, []⟩
      [1, 2, 3, 4, 5, 6, 7, 8, 9, 10] ⟨0x1000, 0x100A⟩).2.1 0x1004).mpr (by decide),
    fun hmem => by
      have h2 := ((DsDecomp.c9_iter_words ⟨".data", .data, 0x1000, 0x100A, 4, []⟩
        [1, 2, 3, 4, 5, 6, 7, 8, 9, 10] ⟨0x1000, 0x100A⟩).2.1 0x1008).mp hmem
      simp at h2⟩

namespace DsDecomp

theorem hullStep_foldl (rs : List URange) (r : URange) :
    ((rs.foldl hullStep r).start = r.start ∨ ∃ b ∈ rs, (rs.foldl hullStep r).start = b.start)
    ∧ ((rs.foldl hullStep r).stop = r.stop ∨ ∃ b ∈ rs, (rs.foldl hullStep r).stop = b.stop)
    ∧ (rs.foldl hullStep r).start ≤ r.start ∧ r.stop ≤ (rs.foldl hullStep r).stop
    ∧ ∀ b ∈ rs, (rs.foldl hullStep r).start ≤ b.start ∧ b.stop ≤ (rs.foldl hullStep r).stop := by
  induction rs generalizing r with
  | nil => simp
  | cons b rs ih =>
    obtain ⟨hs, ht, hsle, htle, hall⟩ := ih (hullStep r b)
    simp only [List.foldl_cons]
    have hmin1 : (hullStep r b).start ≤ r.start := by
      show min r.start b.start ≤ r.start
      omega
    have hmin2 : (hullStep r b).start ≤ b.start := by
      show min r.start b.start ≤ b.start
      omega
    have hmax1 : r.stop ≤ (hullStep r b).stop := by
      show r.stop ≤ max r.stop b.stop
      omega
    have hmax2 : b.stop ≤ (hullStep r b).stop := by
      show b.stop ≤ max r.stop b.stop
      omega
    refine ⟨?_, ?_, le_trans hsle hmin1, le_trans hmax1 htle, ?_⟩
    · rcases hs with h | ⟨c, hc, hcs⟩
      · by_cases hm : r.start ≤ b.start
        · left
          rw [h]
          show min r.start b.start = r.start
          omega
        · right
          refine ⟨b, List.mem_cons_self _ _, ?_⟩
          rw [h]
          show min r.start b.start = b.start
          omega
      · exact Or.inr ⟨c, List.mem_cons_of_mem _ hc, hcs⟩
    · rcases ht with h | ⟨c, hc, hcs⟩
      · by_cases hm : b.stop ≤ r.stop
        · left
          rw [h]
          show max r.stop b.stop = r.stop
          omega
        · right
          refine ⟨b, List.mem_cons_self _ _, ?_⟩
          rw [h]
          show max r.stop b.stop = b.stop
          omega
      · exact Or.inr ⟨c, List.mem_cons_of_mem _ hc, hcs⟩
    · intro c hc
      rcases List.mem_cons.mp hc with rfl | hc2
      · exact ⟨le_trans hsle hmin2, le_trans hmax2 htle⟩
      · exact hall c hc2

theorem mem_bssRanges {ss : Sections} {b : URange} :
    b ∈ (ss.sections.filter (fun s => s.kind == SectionKind.bss)).map Section.address_range ↔
      ∃ sec ∈ ss.sections, sec.kind = SectionKind.bss ∧ sec.address_range = b := by
  rw [List.mem_map]
  constructor
  · rintro ⟨sec, hf, rfl⟩
    rw [List.mem_filter] at hf
    exact ⟨sec, hf.1, by simpa using hf.2, rfl⟩
  · rintro ⟨sec, hmem, hkind, rfl⟩
    exact ⟨sec, List.mem_filter.mpr ⟨hmem, by simpa using hkind⟩, rfl⟩

end DsDecomp

/-- **C10 (counterexample).** A collection reachable by two successful `add`
calls holds Bss sections `[0,4)` and `[8,12)`; `bss_range` returns the hull
`[0,12)`, and address 5 lies in that returned range while belonging to no
Bss-kind section — the claimed "if and only if some Bss section contains the
address" fails. -/
theorem DsDecomp.c10_bss_range_counterexample :
    DsDecomp.Sections.runAdds [⟨"a", .bss, 0, 4, 1, []⟩, ⟨"b", .bss, 8, 12, 4, []⟩] =
      ⟨[⟨"a", .bss, 0, 4, 1, []⟩, ⟨"b", .bss, 8, 12, 4, []⟩]⟩
    ∧ DsDecomp.Sections.bss_range ⟨[⟨"a", .bss, 0, 4, 1, []⟩, ⟨"b", .bss, 8, 12, 4, []⟩]⟩ =
        Option.some ⟨0, 12⟩
    ∧ ((0 : Nat) ≤ 5 ∧ (5 : Nat) < 12)
    ∧ ¬∃ sec ∈ (⟨[⟨"a", .bss, 0, 4, 1, []⟩, ⟨"b", .bss, 8, 12, 4, []⟩]⟩ :
          DsDecomp.Sections).sections,
        sec.kind = DsDecomp.SectionKind.bss ∧ sec.start_address ≤ 5 ∧ 5 < sec.end_address := by
  decide

/-- **C10 (amended).** `bss_range` returns nothing exactly when no Bss-kind
section exists; otherwise it returns the convex hull of the Bss sections'
ranges: its start is the minimum Bss start address (attained by some Bss
section) and its end the maximum Bss end address (attained likewise), every
Bss section's range is contained in it, and in particular every address lying
in some Bss section lies in the returned range — but the returned range may
also cover gap addresses belonging to no Bss section. -/
theorem DsDecomp.c10_bss_range_amended (ss : DsDecomp.Sections) :
    (ss.bss_range = Option.none ↔
      ∀ sec ∈ ss.sections, sec.kind ≠ DsDecomp.SectionKind.bss)
    ∧ ∀ r, ss.bss_range = Option.some r →
        ((∃ sec ∈ ss.sections, sec.kind = DsDecomp.SectionKind.bss ∧
            sec.start_address = r.start)
        ∧ (∃ sec ∈ ss.sections, sec.kind = DsDecomp.SectionKind.bss ∧
            sec.end_address = r.stop)
        ∧ (∀ sec ∈ ss.sections, sec.kind = DsDecomp.SectionKind.bss →
            r.start ≤ sec.start_address ∧ sec.end_address ≤ r.stop)
        ∧ ∀ (a : Nat) (sec : DsDecomp.Section), sec ∈ ss.sections →
            sec.kind = DsDecomp.SectionKind.bss → sec.start_address ≤ a →
            a < sec.end_address → r.start ≤ a ∧ a < r.stop) := by
  unfold DsDecomp.Sections.bss_range
  rcases hl : (ss.sections.filter (fun s => s.kind == DsDecomp.SectionKind.bss)).map
      DsDecomp.Section.address_range with _ | ⟨r0, rs⟩ <;> rw [hl]
  · constructor
    · constructor
      · intro _ sec hmem hkind
        have hb : sec.address_range ∈ (ss.sections.filter
            (fun s => s.kind == DsDecomp.SectionKind.bss)).map DsDecomp.Section.address_range :=
          DsDecomp.mem_bssRanges.mpr ⟨sec, hmem, hkind, rfl⟩
        rw [hl] at hb
        cases hb
      · intro _
        rfl
    · intro r hr
      cases hr
  · constructor
    · constructor
      · intro h
        cases h
      · intro hnone
        exfalso
        have hb : r0 ∈ (ss.sections.filter
            (fun s => s.kind == DsDecomp.SectionKind.bss)).map DsDecomp.Section.address_range := by
          rw [hl]
          exact List.mem_cons_self _ _
        obtain ⟨sec, hmem, hkind, -⟩ := DsDecomp.mem_bssRanges.mp hb
        exact hnone sec hmem hkind
    · intro r hr
      injection hr with hr
      subst hr
      obtain ⟨hs, ht, hsle, htle, hall⟩ := DsDecomp.hullStep_foldl rs r0
      have hbound : ∀ b ∈ r0 :: rs, (rs.foldl DsDecomp.hullStep r0).start ≤ b.start ∧
          b.stop ≤ (rs.foldl DsDecomp.hullStep r0).stop := by
        intro b hb
        rcases List.mem_cons.mp hb with rfl | hb2
        · exact ⟨hsle, htle⟩
        · exact hall b hb2
      have hsec_mem : ∀ sec ∈ ss.sections, sec.kind = DsDecomp.SectionKind.bss →
          sec.address_range ∈ r0 :: rs := by
        intro sec hmem hkind
        rw [← hl]
        exact DsDecomp.mem_bssRanges.mpr ⟨sec, hmem, hkind, rfl⟩
      refine ⟨?_, ?_, ?_, ?_⟩
      · have hs2 : ∃ b ∈ r0 :: rs, (rs.foldl DsDecomp.hullStep r0).start = b.start := by
          rcases hs with h | ⟨c, hc, hcs⟩
          · exact ⟨r0, List.mem_cons_self _ _, h⟩
          · exact ⟨c, List.mem_cons_of_mem _ hc, hcs⟩
        obtain ⟨b, hb, hbs⟩ := hs2
        rw [← hl] at hb
        obtain ⟨sec, hmem, hkind, hrange⟩ := DsDecomp.mem_bssRanges.mp hb
        exact ⟨sec, hmem, hkind, by rw [← hrange] at hbs; exact hbs.symm⟩
      · have ht2 : ∃ b ∈ r0 :: rs, (rs.foldl DsDecomp.hullStep r0).stop = b.stop := by
          rcases ht with h | ⟨c, hc, hcs⟩
          · exact ⟨r0, List.mem_cons_self _ _, h⟩
          · exact ⟨c, List.mem_cons_of_mem _ hc, hcs⟩
        obtain ⟨b, hb, hbs⟩ := ht2
        rw [← hl] at hb
        obtain ⟨sec, hmem, hkind, hrange⟩ := DsDecomp.mem_bssRanges.mp hb
        exact ⟨sec, hmem, hkind, by rw [← hrange] at hbs; exact hbs.symm⟩
      · intro sec hmem hkind
        exact hbound sec.address_range (hsec_mem sec hmem hkind)
      · intro a sec hmem hkind ha1 ha2
        have hb := hbound sec.address_range (hsec_mem sec hmem hkind)
        exact ⟨le_trans hb.1 ha1, lt_of_lt_of_le ha2 hb.2⟩

/-- **C10 (amended, witness).** On the two-Bss-section collection the
returned hull is `[0,12)`: its bounds are attained, and address 9 (inside the
second Bss section) lies in the returned range. -/
theorem DsDecomp.c10_bss_range_amended_witness :
    (∃ sec ∈ (⟨[⟨"a", .bss, 0, 4, 1, []⟩, ⟨"b", .bss, 8, 12, 4, []⟩]⟩ :
        DsDecomp.Sections).sections,
      sec.kind = DsDecomp.SectionKind.bss ∧ sec.start_address = 0)
    ∧ ((0 : Nat) ≤ 9 ∧ (9 : Nat) < 12) :=
  ⟨((DsDecomp.c10_bss_range_amended
        ⟨[⟨"a", .bss, 0, 4, 1, []⟩, ⟨"b", .bss, 8, 12, 4, []⟩]⟩).2 ⟨0, 12⟩ (by decide)).1,
    ((DsDecomp.c10_bss_range_amended
        ⟨[⟨"a", .bss, 0, 4, 1, []⟩, ⟨"b", .bss, 8, 12, 4, []⟩]⟩).2 ⟨0, 12⟩ (by decide)).2.2.2
      9 ⟨"b", .bss, 8, 12, 4, []⟩ (by decide) (by decide) (by decide) (by decide)⟩
